import Mathlib

/-!
# Verification of the GDPRag ingestion-and-retrieval pipeline

Shallow embedding of `rag_engine.py` (chunking, embedding batching, ingest
storage, loading, and the query pipeline), with theorems settling the spec
claims about it.

Strings are modelled as `List Char` (one entry per Unicode code point, which
matches Python's `len`/slicing semantics).  Python integers appearing as slice
bounds are modelled as `Int`, since the chunker's window start can in
principle become negative; Python's negative-index slice semantics are
reproduced in `pyBound`/`pySlice`/`pyRfind`.  `while` loops are modelled with
an explicit fuel argument, returning `none` when the fuel is exhausted.
-/

namespace GDPRag

/-- ASCII whitespace recognised by Python's `str.strip()` (space, tab,
newline, carriage return, vertical tab, form feed).  The source texts are
modelled over this set; the full-Unicode cases of `str.strip` behave
identically on them. -/
def pySpace (c : Char) : Bool :=
  c = ' ' || c = '\t' || c = '\n' || c = '\r' || c = Char.ofNat 11 || c = Char.ofNat 12

/-- Python `s.strip()`: drop leading and trailing whitespace. -/
def pyStrip (s : List Char) : List Char :=
  (((s.dropWhile pySpace).reverse.dropWhile pySpace)).reverse

/-- Normalise a Python slice bound: a negative index counts from the end
(clamped below at 0, which is what `Int.toNat` does). -/
def pyBound (n : Nat) (i : Int) : Nat :=
  if i < 0 then ((n : Int) + i).toNat else i.toNat

/-- Python `s[a:b]` for a `List Char`. -/
def pySlice (s : List Char) (a b : Int) : List Char :=
  (s.take (pyBound s.length b)).drop (pyBound s.length a)

/-- Does `sub` occur in `s` at position `i`? -/
def matchesAt (s sub : List Char) (i : Nat) : Bool :=
  (s.drop i).take sub.length == sub

/-- Scan downward from position `i` for the highest occurrence of `sub`. -/
def rfindDown (s sub : List Char) : Nat → Option Nat
  | 0 => if matchesAt s sub 0 then some 0 else none
  | i + 1 => if matchesAt s sub (i + 1) then some (i + 1) else rfindDown s sub i

/-- Python `s.rfind(sub, a, b)`: highest index `i` with `a' ≤ i`,
`i + len(sub) ≤ b'` and `sub` occurring at `i` (bounds normalised and clamped
to `[0, len(s)]`); `-1` when there is none. -/
def pyRfind (s sub : List Char) (a b : Int) : Int :=
  let n := s.length
  let lo := min (pyBound n a) n
  let hi := min (pyBound n b) n
  if sub.length ≤ hi then
    match rfindDown s sub (hi - sub.length) with
    | some i => if lo ≤ i then (i : Int) else -1
    | none => -1
  else -1

/-- The separator priority list of `chunk_text`
(`["\n\n", "\n", ". ", "! ", "? ", "; "]`). -/
def seps : List (List Char) :=
  [['\n', '\n'], ['\n'], ['.', ' '], ['!', ' '], ['?', ' '], [';', ' ']]

/-- The `for sep in [...]` loop of `chunk_text`: try each separator in order
with `text.rfind(sep, lo, hi)`; on the first hit move the cut to just after
it, otherwise keep `e`. -/
def sepSearch : List (List Char) → List Char → Int → Int → Int → Int
  | [], _, _, _, e => e
  | sep :: rest, text, lo, hi, e =>
    let r := pyRfind text sep lo hi
    if r = -1 then sepSearch rest text lo hi e else r + sep.length

/-- One window-end computation of `chunk_text`: `end = start + size`, and if
`end < len(text)` search `[start + size // 2, end)` for the best separator. -/
def adjustEnd (text : List Char) (start : Int) (size : Nat) : Int :=
  let e := start + (size : Int)
  if e < (text.length : Int) then
    sepSearch seps text (start + ((size / 2 : Nat) : Int)) e e
  else e

/-- The value of the advancing window start after one iteration of the
`chunk_text` loop (`start = end - overlap`). -/
def nextStart (text : List Char) (size overlap : Nat) (start : Int) : Int :=
  adjustEnd text start size - (overlap : Int)

/-- The `while start < len(text)` loop of `RAGEngine.chunk_text`, with fuel.
Each iteration computes the adjusted end, strips the slice, keeps it when it
is non-empty and longer than 50 characters, and advances
`start := end - overlap`. -/
def chunkLoop (text : List Char) (size overlap : Nat) :
    Nat → Int → List (List Char) → Option (List (List Char))
  | 0, _, _ => none
  | fuel + 1, start, acc =>
    if start < (text.length : Int) then
      chunkLoop text size overlap fuel (nextStart text size overlap start)
        (if pyStrip (pySlice text start (adjustEnd text start size)) ≠ [] ∧
            50 < (pyStrip (pySlice text start (adjustEnd text start size))).length
         then acc ++ [pyStrip (pySlice text start (adjustEnd text start size))]
         else acc)
    else some acc

/-- `RAGEngine.chunk_text(text)` with `chunk_size = size`,
`chunk_overlap = overlap`, and explicit fuel. -/
def chunk_text (text : List Char) (size overlap fuel : Nat) :
    Option (List (List Char)) :=
  chunkLoop text size overlap fuel 0 []

/-- Same loop, instrumented: records the raw `[start, end)` window of every
iteration instead of the produced chunk. -/
def chunkWindowsLoop (text : List Char) (size overlap : Nat) :
    Nat → Int → List (Int × Int) → Option (List (Int × Int))
  | 0, _, _ => none
  | fuel + 1, start, acc =>
    if start < (text.length : Int) then
      chunkWindowsLoop text size overlap fuel (nextStart text size overlap start)
        (acc ++ [(start, adjustEnd text start size)])
    else some acc

/-- The raw windows traversed by `chunk_text`. -/
def chunk_windows (text : List Char) (size overlap fuel : Nat) :
    Option (List (Int × Int)) :=
  chunkWindowsLoop text size overlap fuel 0 []

/-- Post-processing that turns raw windows into the emitted chunks: strip each
window's slice and keep the fragments that are non-empty and longer than 50. -/
def procW (text : List Char) (ws : List (Int × Int)) : List (List Char) :=
  (ws.map fun w => pyStrip (pySlice text w.1 w.2)).filter
    fun c => decide (c ≠ [] ∧ 50 < c.length)

/-- The window list is chained: the first window starts at `s`, and each
subsequent one starts at the previous window's end minus `overlap`. -/
def linked (overlap : Nat) : Int → List (Int × Int) → Prop
  | _, [] => True
  | s, w :: rest => w.1 = s ∧ linked overlap (w.2 - (overlap : Int)) rest

/-- Position `p` lies inside one of the windows. -/
def covered (ws : List (Int × Int)) (p : Int) : Prop :=
  ∃ w ∈ ws, w.1 ≤ p ∧ p < w.2

/-! ## Chunk IDs (`f"chunk_{existing_count + i:06d}"`) -/

/-- The decimal digit character for `d` (`d < 10` in every use). -/
def digitChar (d : Nat) : Char := Char.ofNat (48 + d)

/-- Big-endian decimal digits of a positive number, with fuel (`n` itself is
always enough fuel since `n / 10 < n`). -/
def digitsAux : Nat → Nat → List Char
  | 0, _ => []
  | _ + 1, 0 => []
  | fuel + 1, n + 1 => digitsAux fuel ((n + 1) / 10) ++ [digitChar ((n + 1) % 10)]

/-- Big-endian decimal digits of `n`, as Python's `str(n)` produces them. -/
def digits (n : Nat) : List Char :=
  if n = 0 then ['0'] else digitsAux n n

/-- Python `f"{n:06d}"`: the decimal digits of `n` left-padded with zeros to
width 6 (wider numbers are not truncated). -/
def fmt06 (n : Nat) : List Char :=
  List.replicate (6 - (digits n).length) '0' ++ digits n

/-- The generated vector id `f"chunk_{n:06d}"`. -/
def chunkId (n : Nat) : List Char :=
  "chunk_".data ++ fmt06 n

/-! ## Documents, chunk metadata, `chunk_documents` -/

/-- A document record as assembled by `load_sources` (text already stripped,
`hash`/`size` computed on the raw extracted text). -/
structure DocRecord where
  filename : List Char
  filepath : List Char
  source_dir : List Char
  text : List Char
  hash : List Char
  size : Nat
  modified : List Char
deriving DecidableEq

/-- Per-chunk metadata persisted next to each vector. -/
structure ChunkMeta where
  filename : List Char
  source_dir : List Char
  chunk_index : Nat
  total_chunks : Nat
  content_hash : List Char
  doc_modified : List Char
deriving DecidableEq

/-- The metadata records produced for one document's chunk list: the `i`-th
carries `chunk_index = i` and `total_chunks = ` the document's chunk count. -/
def metasFor (d : DocRecord) (cs : List (List Char)) : List ChunkMeta :=
  (List.range cs.length).map fun i =>
    { filename := d.filename, source_dir := d.source_dir, chunk_index := i,
      total_chunks := cs.length, content_hash := d.hash,
      doc_modified := d.modified }

/-- `RAGEngine.chunk_documents`: chunk every document in order, appending the
chunks and the matching metadata to two parallel lists. -/
def chunk_documents (size overlap fuel : Nat) :
    List DocRecord → Option (List (List Char) × List ChunkMeta)
  | [] => some ([], [])
  | d :: rest =>
    match chunk_text d.text size overlap fuel with
    | none => none
    | some cs =>
      match chunk_documents size overlap fuel rest with
      | none => none
      | some (rc, rm) => some (cs ++ rc, metasFor d cs ++ rm)

/-! ## Embedding (`embed_texts`) -/

/-- The `for i in range(0, total, batch_size)` loop of `embed_texts`: one
remote call per batch of at most `bs` texts, concatenating the returned
vectors in order.  `cap` is the remote embedding capability (one round trip
per batch). -/
def embedLoop {T E : Type} (cap : List T → List E) (bs : Nat) :
    Nat → List T → List E
  | 0, _ => []
  | fuel + 1, ts =>
    if ts.isEmpty then []
    else cap (ts.take bs) ++ embedLoop cap bs fuel (ts.drop bs)

/-- `RAGEngine.embed_texts(texts, batch_size)`; `texts.length` iterations are
always enough fuel when `1 ≤ bs`. -/
def embed_texts {T E : Type} (cap : List T → List E) (bs : Nat)
    (texts : List T) : List E :=
  embedLoop cap bs texts.length texts

/-- The batch decomposition `texts[0:bs], texts[bs:2*bs], ...` used by
`embed_texts`. -/
def batchesLoop {T : Type} (bs : Nat) : Nat → List T → List (List T)
  | 0, _ => []
  | fuel + 1, ts =>
    if ts.isEmpty then []
    else ts.take bs :: batchesLoop bs fuel (ts.drop bs)

/-- The consecutive batches of at most `bs` items that `embed_texts` sends. -/
def batches {T : Type} (bs : Nat) (texts : List T) : List (List T) :=
  batchesLoop bs texts.length texts

/-! ## Vector store and the storage stage of `ingest` -/

/-- One stored vector record: id, chunk text, embedding, metadata. -/
structure VecRec (E : Type) where
  id : List Char
  document : List Char
  embedding : E
  metadata : ChunkMeta
deriving DecidableEq

/-- `collection.add(ids, documents, embeddings, metadatas)` pairs the four
lists positionally (they always have equal length at the call sites). -/
def zipRecs {E : Type} :
    List (List Char) → List (List Char) → List E → List ChunkMeta →
      List (VecRec E)
  | i :: is2, d :: ds, e :: es, m :: ms =>
    ⟨i, d, e, m⟩ :: zipRecs is2 ds es ms
  | _, _, _, _ => []

/-- The `for i in range(0, len(chunks), batch_limit)` write loop: append the
pending records to the collection in sub-batches of at most `limit`.
(Slicing the four parallel lists and zipping commutes, so the pending records
are modelled as already zipped.) -/
def addLoop {E : Type} (limit : Nat) :
    Nat → List (VecRec E) → List (VecRec E) → List (VecRec E)
  | 0, coll, _ => coll
  | fuel + 1, coll, pend =>
    if pend.isEmpty then coll
    else addLoop limit fuel (coll ++ pend.take limit) (pend.drop limit)

/-- The message appended to `stats["errors"]` when no document was loaded. -/
def noDocsMsg : List Char := "Nessun documento trovato".data

/-- The statistics dict returned by `ingest` (the float `cost_est` is omitted;
`tokens_est = total_characters // 4`). -/
structure IngestStats where
  documents : Nat
  chunks : Nat
  tokens_est : Nat
  errors : List (List Char)
deriving DecidableEq

/-- The pipeline of `RAGEngine.ingest` after document loading: early-return a
no-op result when no document was loaded; otherwise chunk, embed, and store.
Fresh ingest (`append = False`) deletes and recreates the collection and
assigns ids from 0; append keeps it and assigns ids from the current count.
`none` only signals chunking fuel exhaustion (the Python loop not having
terminated yet). -/
def ingest_docs {E : Type} (cap : List (List Char) → List E)
    (bs size overlap fuel : Nat) (docs : List DocRecord) (append : Bool)
    (coll : List (VecRec E)) : Option (IngestStats × List (VecRec E)) :=
  if docs = [] then
    some ({ documents := 0, chunks := 0, tokens_est := 0,
            errors := [noDocsMsg] }, coll)
  else
    match chunk_documents size overlap fuel docs with
    | none => none
    | some (chunks, metadata) =>
      let embeddings := embed_texts cap bs chunks
      let coll1 : List (VecRec E) := if append then coll else []
      let existing_count := if append then coll1.length else 0
      let ids := (List.range chunks.length).map fun i =>
        chunkId (existing_count + i)
      let newRecs := zipRecs ids chunks embeddings metadata
      let coll2 := addLoop 5000 (newRecs.length + 1) coll1 newRecs
      some ({ documents := docs.length, chunks := chunks.length,
              tokens_est := (chunks.map List.length).sum / 4, errors := [] },
            coll2)

/-! ## Loading (`load_sources`, `load_sources_file`) and full `ingest` -/

/-- A file as the loader sees it: its name, full path, lowercased extension,
the text produced by the extraction collaborator (`extract_text`), its parent
directory and modification time. -/
structure FileEntry where
  name : List Char
  path : List Char
  suffix : List Char
  text : List Char
  parent : List Char
  modified : List Char
deriving DecidableEq

/-- A filesystem node a supplied path can resolve to: a single file, or a
directory whose recursive (sorted) enumeration yields the given files
(sub-directories are skipped by the source and therefore omitted here). -/
inductive FSNode
  | file (f : FileEntry)
  | dir (entries : List FileEntry)
deriving DecidableEq

/-- A filesystem: resolution of paths to nodes; absent key = nonexistent. -/
def FS : Type := List (List Char × FSNode)

/-- `Path(p).exists()` / resolution. -/
def fsLookup (fs : FS) (p : List Char) : Option FSNode :=
  (List.find? (fun kv => decide (kv.1 = p)) fs).map Prod.snd

/-- The supported-extension set `SUPPORTED_EXTENSIONS`. -/
def SUPPORTED_EXTENSIONS : List (List Char) :=
  [".txt".data, ".md".data, ".csv".data, ".json".data, ".log".data,
   ".yml".data, ".yaml".data, ".xml".data, ".pdf".data, ".docx".data,
   ".doc".data, ".xlsx".data, ".xls".data, ".pptx".data, ".html".data,
   ".htm".data, ".odt".data, ".rtf".data]

/-- Per-file step of `load_sources`: skip unsupported extensions, hidden and
Office temp files (leading `.` or `~`), and files whose extracted text strips
to nothing; otherwise assemble the `DocRecord` (`hashFn` stands for the
`md5(text)[:12]` digest). -/
def processFile (hashFn : List Char → List Char) (f : FileEntry) :
    Option DocRecord :=
  if f.suffix ∉ SUPPORTED_EXTENSIONS then none
  else if f.name.head? = some '.' ∨ f.name.head? = some '~' then none
  else if pyStrip f.text = [] then none
  else some { filename := f.name, filepath := f.path, source_dir := f.parent,
              text := pyStrip f.text, hash := hashFn f.text,
              size := f.text.length, modified := f.modified }

/-- `RAGEngine.load_sources(paths)`: walk the paths in order; a path that does
not exist is skipped with a warning (the loop `continue`s); a file path
contributes at most its own record; a directory contributes its files in
order. -/
def load_sources (fs : FS) (hashFn : List Char → List Char) :
    List (List Char) → List DocRecord
  | [] => []
  | p :: rest =>
    (match fsLookup fs p with
     | none => []
     | some (.file f) => (processFile hashFn f).toList
     | some (.dir entries) => entries.filterMap (processFile hashFn)) ++
      load_sources fs hashFn rest

/-- The exceptions `ingest` can raise (messages elided; the constructors
correspond to `FileNotFoundError` and `ValueError`). -/
inductive IngestErr
  | fileNotFound
  | valueError
deriving DecidableEq

/-- `RAGEngine.load_sources_file(sources_file)`: `none` manifest = the file
does not exist (`FileNotFoundError`); otherwise keep the stripped lines that
are non-empty and do not start with `#`, raise `ValueError` when none remain,
and load the remaining paths. -/
def load_sources_file (fs : FS) (hashFn : List Char → List Char)
    (manifest : Option (List (List Char))) :
    Except IngestErr (List DocRecord) :=
  match manifest with
  | none => .error .fileNotFound
  | some ls =>
    let paths := (ls.map pyStrip).filter
      fun l => decide (l ≠ [] ∧ l.head? ≠ some '#')
    if paths = [] then .error .valueError
    else .ok (load_sources fs hashFn paths)

/-- `RAGEngine.ingest(paths, sources_file, append)` including the document
loading stage.  `manifest = some m` models a `sources_file` argument whose
file content is `m` (`m = none`: the manifest file is missing); otherwise
`paths` are loaded directly, and with neither a `ValueError` is raised.
A raised exception propagates out of `ingest` as `Except.error`. -/
def ingest_from {E : Type} (cap : List (List Char) → List E)
    (bs size overlap fuel : Nat) (fs : FS) (hashFn : List Char → List Char)
    (paths : Option (List (List Char)))
    (manifest : Option (Option (List (List Char)))) (append : Bool)
    (coll : List (VecRec E)) :
    Option (Except IngestErr (IngestStats × List (VecRec E))) :=
  let loaded : Except IngestErr (List DocRecord) :=
    match manifest with
    | some m => load_sources_file fs hashFn m
    | none =>
      match paths with
      | some ps => .ok (load_sources fs hashFn ps)
      | none => .error .valueError
  match loaded with
  | .error e => some (.error e)
  | .ok docs =>
    (ingest_docs cap bs size overlap fuel docs append coll).map .ok

/-! ## Retrieval (`query`) -/

/-- Round half to even (Python's `round`) to the nearest integer.  Distances
are modelled as exact rationals. -/
def roundHalfEven (q : ℚ) : ℤ :=
  if q - (q.floor : ℚ) < 1/2 then q.floor
  else if 1/2 < q - (q.floor : ℚ) then q.floor + 1
  else if q.floor % 2 = 0 then q.floor else q.floor + 1

/-- Python `round(q, 4)`. -/
def pyRound4 (q : ℚ) : ℚ :=
  (roundHalfEven (q * 10000) : ℚ) / 10000

/-- The structured reply of the chat-completion capability. -/
structure GenOut where
  content : List Char
  prompt_tokens : Nat
  completion_tokens : Nat
  total_tokens : Nat
deriving DecidableEq

/-- The token-usage dict `query` returns. -/
structure Usage where
  prompt_tokens : Nat
  completion_tokens : Nat
  total_tokens : Nat
deriving DecidableEq

/-- One entry of the `sources` list `query` returns. -/
structure Citation where
  filename : List Char
  chunk_index : Nat
  similarity : ℚ
  preview : List Char
deriving DecidableEq

/-- The dict `query` returns. -/
structure QueryResult where
  answer : List Char
  sources : List Citation
  usage : Usage
deriving DecidableEq

/-- The exceptions escaping `query`: the collection does not exist
(`chroma.get_collection` raises), or the generation call failed (`G` is the
remote error detail).  The two are distinct constructors, hence
distinguishable by the caller. -/
inductive QueryError (G : Type)
  | collectionNotFound
  | generationFailed (e : G)
deriving DecidableEq

/-- `source_info` for one retrieved `(document, metadata, distance)` triple:
`similarity = round(1 - distance, 4)` and a preview of the first 200
characters with an ellipsis when truncated. -/
def mkSource (doc : List Char) (meta : ChunkMeta) (dist : ℚ) : Citation :=
  { filename := meta.filename, chunk_index := meta.chunk_index,
    similarity := pyRound4 (1 - dist),
    preview := if 200 < doc.length then doc.take 200 ++ "...".data else doc }

/-- The `[Fonte: filename, sezione chunk_index]\n{doc}` context block. -/
def fonteBlock (doc : List Char) (meta : ChunkMeta) : List Char :=
  "[Fonte: ".data ++ meta.filename ++ ", sezione ".data ++
    digits meta.chunk_index ++ "]".data ++ "\n".data ++ doc

/-- The user prompt assembled around the grounding context and question. -/
def userPrompt (context question : List Char) : List Char :=
  "Contesto dai documenti aziendali:\n---------------------\n".data ++
    context ++
    "\n---------------------\n\nDomanda: ".data ++ question ++
    "\n\nRispondi basandoti solo sul contesto fornito sopra.".data

/-- `RAGEngine.query(question, top_k)`.  `search` is the vector store's
similarity search (nearest-first results with distances), `gen` the chat
capability, `embedQ` the single-item question embedding.  `coll = none`
models a collection that has never been created. -/
def query {E G : Type}
    (search : List (VecRec E) → E → Nat → List (List Char × ChunkMeta × ℚ))
    (gen : List Char → List Char → Except G GenOut)
    (embedQ : List Char → E) (system_prompt : List Char)
    (coll : Option (List (VecRec E))) (question : List Char) (top_k : Nat) :
    Except (QueryError G) QueryResult :=
  match coll with
  | none => .error .collectionNotFound
  | some records =>
    let q_embedding := embedQ question
    let results := search records q_embedding top_k
    let sources := results.map fun r => mkSource r.1 r.2.1 r.2.2
    let context_parts := results.map fun r => fonteBlock r.1 r.2.1
    let context := List.intercalate ("\n\n---\n\n".data) context_parts
    let user_prompt := userPrompt context question
    match gen system_prompt user_prompt with
    | .error e => .error (.generationFailed e)
    | .ok out =>
      .ok { answer := out.content, sources := sources,
            usage := ⟨out.prompt_tokens, out.completion_tokens,
                      out.total_tokens⟩ }

/-! ## Properties of `pyStrip` -/

theorem pyStrip_pre_dropWhile (s : List Char) :
    pyStrip s <+: s.dropWhile pySpace := by
  apply List.reverse_suffix.mp
  simp only [pyStrip, List.reverse_reverse]
  exact List.dropWhile_suffix _

theorem pyStrip_infix_self (s : List Char) : pyStrip s <:+: s :=
  (pyStrip_pre_dropWhile s).isInfix.trans (List.dropWhile_suffix _).isInfix

theorem pyStrip_head_false (s : List Char) :
    ∀ a t, pyStrip s = a :: t → pySpace a = false := by
  intro a t h
  obtain ⟨u, hu⟩ := pyStrip_pre_dropWhile s
  have hh : (s.dropWhile pySpace).head? = some a := by
    rw [← hu, h]; rfl
  have h2 := List.head?_dropWhile_not pySpace s
  rw [hh] at h2
  exact h2

theorem pyStrip_getLast_false (s : List Char) :
    ∀ a, (pyStrip s).getLast? = some a → pySpace a = false := by
  intro a ha
  have hrev : ((s.dropWhile pySpace).reverse.dropWhile pySpace).head? = some a := by
    have : (pyStrip s).getLast? =
        ((s.dropWhile pySpace).reverse.dropWhile pySpace).head? := by
      simp only [pyStrip, List.getLast?_reverse]
    rw [← this]; exact ha
  have h2 := List.head?_dropWhile_not pySpace (s.dropWhile pySpace).reverse
  rw [hrev] at h2
  exact h2

theorem dropWhile_eq_self_of_head (l : List Char)
    (h : ∀ a t, l = a :: t → pySpace a = false) :
    l.dropWhile pySpace = l := by
  cases l with
  | nil => rfl
  | cons a t =>
    have := h a t rfl
    simp [this]

theorem pyStrip_idem (s : List Char) : pyStrip (pyStrip s) = pyStrip s := by
  have h1 : (pyStrip s).dropWhile pySpace = pyStrip s :=
    dropWhile_eq_self_of_head _ (pyStrip_head_false s)
  have h2 : (pyStrip s).reverse.dropWhile pySpace = (pyStrip s).reverse := by
    apply dropWhile_eq_self_of_head
    intro a t h
    apply pyStrip_getLast_false s
    rw [← List.head?_reverse, h]; rfl
  show (((pyStrip s).dropWhile pySpace).reverse.dropWhile pySpace).reverse = pyStrip s
  rw [h1, h2, List.reverse_reverse]

theorem infix_dropWhile_of_head (a : Char) (m : List Char)
    (ha : pySpace a = false) :
    ∀ l : List Char, (a :: m) <:+: l → (a :: m) <:+: l.dropWhile pySpace := by
  intro l
  induction l with
  | nil =>
    intro h
    have := List.eq_nil_of_infix_nil h
    exact absurd this (by simp)
  | cons x xs ih =>
    intro h
    by_cases hx : pySpace x
    · rw [List.dropWhile_cons_of_pos hx]
      rcases List.infix_cons_iff.mp h with hp | hi
      · obtain ⟨t, ht⟩ := hp
        have hax : a = x := by
          have : a :: (m ++ t) = x :: xs := by simpa using ht
          exact (List.cons.injEq _ _ _ _ ▸ this).1
        rw [hax] at ha
        rw [hx] at ha
        exact absurd ha (by simp)
      · exact ih hi
    · rw [List.dropWhile_cons_of_neg hx]
      exact h

theorem infix_pyStrip_of_ends (a : Char) (t l : List Char)
    (hh : pySpace a = false)
    (hl : ∀ b, (a :: t).getLast? = some b → pySpace b = false)
    (hm : (a :: t) <:+: l) : (a :: t) <:+: pyStrip l := by
  have h1 : (a :: t) <:+: l.dropWhile pySpace :=
    infix_dropWhile_of_head a t hh l hm
  have h2 : (a :: t).reverse <:+: (l.dropWhile pySpace).reverse :=
    List.reverse_infix.mpr h1
  cases hmr : (a :: t).reverse with
  | nil => exact absurd hmr (by simp)
  | cons b tr =>
    have hb : pySpace b = false := by
      apply hl
      rw [← List.head?_reverse, hmr]; rfl
    rw [hmr] at h2
    have h3 : (b :: tr) <:+: ((l.dropWhile pySpace).reverse).dropWhile pySpace :=
      infix_dropWhile_of_head b tr hb _ h2
    have h4 := List.reverse_infix.mpr h3
    rw [← hmr, List.reverse_reverse] at h4
    exact h4

theorem pySlice_infix_text (text : List Char) (a b : Int) :
    pySlice text a b <:+: text :=
  (List.drop_suffix _ _).isInfix.trans ( List.take_prefix _ _).isInfix

theorem length_pyStrip_slice_le (text : List Char) (a b : Int) :
    (pyStrip (pySlice text a b)).length ≤ (pyStrip text).length := by
  cases hc : pyStrip (pySlice text a b) with
  | nil => simp
  | cons x xs =>
    have hinf : (x :: xs) <:+: text := by
      rw [← hc]
      exact (pyStrip_infix_self _).trans (pySlice_infix_text text a b)
    have hx : pySpace x = false := by
      have := pyStrip_head_false (pySlice text a b) x xs hc
      exact this
    have hlast : ∀ c, (x :: xs).getLast? = some c → pySpace c = false := by
      intro c hcl
      apply pyStrip_getLast_false (pySlice text a b)
      rw [hc]; exact hcl
    have h8 := infix_pyStrip_of_ends x xs text hx hlast hinf
    calc (x :: xs).length ≤ (pyStrip text).length := h8.length_le

/-! ## The chunk floor invariant (C10) -/

theorem chunkLoop_mem (text : List Char) (size ov : Nat) :
    ∀ (fuel : Nat) (start : Int) (acc res : List (List Char)),
      chunkLoop text size ov fuel start acc = some res →
      ∀ c ∈ res,
        c ∈ acc ∨
          ∃ a b : Int, c = pyStrip (pySlice text a b) ∧ c ≠ [] ∧ 50 < c.length := by
  intro fuel
  induction fuel with
  | zero =>
    intro start acc res h
    simp [chunkLoop] at h
  | succ n ih =>
    intro start acc res h
    rw [chunkLoop] at h
    by_cases hs : start < (text.length : Int)
    · rw [if_pos hs] at h
      intro c hc
      rcases ih _ _ _ h c hc with h1 | h2
      · by_cases hP : pyStrip (pySlice text start (adjustEnd text start size)) ≠ [] ∧
            50 < (pyStrip (pySlice text start (adjustEnd text start size))).length
        · rw [if_pos hP] at h1
          rcases List.mem_append.mp h1 with ha | hb
          · exact Or.inl ha
          · right
            have hceq : c = pyStrip (pySlice text start (adjustEnd text start size)) := by
              simpa using hb
            exact ⟨start, adjustEnd text start size, hceq, hceq ▸ hP.1, hceq ▸ hP.2⟩
        · rw [if_neg hP] at h1
          exact Or.inl h1
      · exact Or.inr h2
    · rw [if_neg hs] at h
      intro c hc
      have : res = acc := by
        have := h
        injection this with h2
        exact h2.symm
      exact Or.inl (this ▸ hc)

/-- C10.  Every string emitted by `chunk_text` is already stripped (equals its
own `strip()`) and has length strictly greater than 50; consequently a text
whose stripped content is at most 50 characters long (including the empty
string) yields the empty chunk list — fragments stripping to 50 or fewer
characters are dropped wherever they occur, not only at the trailing end. -/
theorem chunk_floor_invariant (text : List Char) (size overlap fuel : Nat)
    (res : List (List Char)) (h : chunk_text text size overlap fuel = some res) :
    (∀ c ∈ res, pyStrip c = c ∧ 50 < c.length) ∧
      ((pyStrip text).length ≤ 50 → res = []) := by
  have hm := chunkLoop_mem text size overlap fuel 0 [] res h
  constructor
  · intro c hc
    rcases hm c hc with h0 | ⟨a, b, hab, _, hlen⟩
    · exact absurd h0 (by simp)
    · refine ⟨?_, hlen⟩
      rw [hab]
      exact pyStrip_idem _
  · intro h50
    rw [List.eq_nil_iff_forall_not_mem]
    intro c hc
    rcases hm c hc with h0 | ⟨a, b, hab, _, hlen⟩
    · exact absurd h0 (by simp)
    · have hle : c.length ≤ (pyStrip text).length := by
        rw [hab]; exact length_pyStrip_slice_le text a b
      omega

/-- Concrete exemplar text: 60 letters, one chunk. -/
def exW : List Char := List.replicate 60 'a'

/-- Witness for C10 at a concrete input: a 60-character text produces exactly
one chunk and the invariant holds for it. -/
theorem chunk_floor_invariant_w :
    chunk_text exW 1000 200 2 = some [exW] ∧
      ((∀ c ∈ [exW], pyStrip c = c ∧ 50 < c.length) ∧
        ((pyStrip exW).length ≤ 50 → [exW] = [])) :=
  ⟨by decide, chunk_floor_invariant exW 1000 200 2 [exW] (by decide)⟩

/-! ## Chunk coverage (C1) -/

theorem procW_append (text : List Char) (ws : List (Int × Int)) (w : Int × Int) :
    procW text (ws ++ [w]) =
      procW text ws ++
        (if pyStrip (pySlice text w.1 w.2) ≠ [] ∧
            50 < (pyStrip (pySlice text w.1 w.2)).length
         then [pyStrip (pySlice text w.1 w.2)] else []) := by
  by_cases hP : pyStrip (pySlice text w.1 w.2) ≠ [] ∧
      50 < (pyStrip (pySlice text w.1 w.2)).length
  · simp [procW, List.filter_append, hP]
  · simp [procW, List.filter_append, hP]

theorem chunkLoop_eq_windows (text : List Char) (size ov : Nat) :
    ∀ (fuel : Nat) (start : Int) (accW : List (Int × Int)),
      chunkLoop text size ov fuel start (procW text accW) =
        Option.map (procW text) (chunkWindowsLoop text size ov fuel start accW) := by
  intro fuel
  induction fuel with
  | zero => intro start accW; rfl
  | succ n ih =>
    intro start accW
    rw [chunkLoop, chunkWindowsLoop]
    by_cases hs : start < (text.length : Int)
    · rw [if_pos hs, if_pos hs]
      rw [show (if pyStrip (pySlice text start (adjustEnd text start size)) ≠ [] ∧
            50 < (pyStrip (pySlice text start (adjustEnd text start size))).length
          then procW text accW ++ [pyStrip (pySlice text start (adjustEnd text start size))]
          else procW text accW) =
          procW text (accW ++ [(start, adjustEnd text start size)]) from ?_]
      · exact ih _ _
      · rw [procW_append]
        by_cases hP : pyStrip (pySlice text start (adjustEnd text start size)) ≠ [] ∧
            50 < (pyStrip (pySlice text start (adjustEnd text start size))).length
        · rw [if_pos hP, if_pos hP]
        · rw [if_neg hP, if_neg hP, List.append_nil]
    · rw [if_neg hs, if_neg hs]
      rfl

theorem chunk_text_eq_windows (text : List Char) (size ov fuel : Nat) :
    chunk_text text size ov fuel =
      Option.map (procW text) (chunk_windows text size ov fuel) := by
  have h := chunkLoop_eq_windows text size ov fuel 0 []
  simpa [chunk_text, chunk_windows, procW] using h

theorem chunkWindowsLoop_linked (text : List Char) (size ov : Nat) :
    ∀ (fuel : Nat) (start : Int) (accW ws : List (Int × Int)),
      chunkWindowsLoop text size ov fuel start accW = some ws →
      ∃ tailW, ws = accW ++ tailW ∧ linked ov start tailW := by
  intro fuel
  induction fuel with
  | zero => intro start accW ws h; simp [chunkWindowsLoop] at h
  | succ n ih =>
    intro start accW ws h
    rw [chunkWindowsLoop] at h
    by_cases hs : start < (text.length : Int)
    · rw [if_pos hs] at h
      obtain ⟨tailW, ht, hl⟩ := ih _ _ _ h
      refine ⟨(start, adjustEnd text start size) :: tailW, ?_, ?_⟩
      · rw [ht, List.append_assoc]; rfl
      · exact ⟨rfl, hl⟩
    · rw [if_neg hs] at h
      injection h with h2
      exact ⟨[], by rw [← h2, List.append_nil], trivial⟩

theorem chunkWindowsLoop_covers (text : List Char) (size ov : Nat) :
    ∀ (fuel : Nat) (start B : Int) (accW ws : List (Int × Int)),
      start ≤ B →
      (∀ p : Int, 0 ≤ p → p < B → covered accW p) →
      chunkWindowsLoop text size ov fuel start accW = some ws →
      ∀ p : Int, 0 ≤ p → p < (text.length : Int) → covered ws p := by
  intro fuel
  induction fuel with
  | zero => intro start B accW ws _ _ h; simp [chunkWindowsLoop] at h
  | succ n ih =>
    intro start B accW ws hB hcov h
    rw [chunkWindowsLoop] at h
    by_cases hs : start < (text.length : Int)
    · rw [if_pos hs] at h
      refine ih _ (max B (adjustEnd text start size)) _ _ ?_ ?_ h
      · have h1 : nextStart text size ov start ≤ adjustEnd text start size := by
          unfold nextStart; omega
        exact le_trans h1 (le_max_right _ _)
      · intro p hp hpB
        by_cases hpB2 : p < B
        · obtain ⟨w, hw, h1, h2⟩ := hcov p hp hpB2
          exact ⟨w, List.mem_append_left _ hw, h1, h2⟩
        · refine ⟨(start, adjustEnd text start size),
            List.mem_append_right _ (by simp), ?_, ?_⟩
          · have : start ≤ B := hB
            omega
          · have : p < adjustEnd text start size ∨ p < B := by
              rcases max_cases B (adjustEnd text start size) with ⟨he, _⟩ | ⟨he, _⟩
              · exact Or.inr (he ▸ hpB)
              · exact Or.inl (he ▸ hpB)
            omega
    · rw [if_neg hs] at h
      injection h with h2
      intro p hp hlen
      have : p < B := by omega
      exact h2 ▸ hcov p hp this

/-- C1 counterexample text: 60 `a`s, a paragraph break, 60 `b`s. -/
def exC1 : List Char :=
  List.replicate 60 'a' ++ ('\n' :: '\n' :: List.replicate 60 'b')

set_option maxRecDepth 40000 in
/-- C1 is false as stated: with `size = 120`, `overlap = 0` (a valid pair, no
overlapping spans to remove) `chunk_text` returns the two stripped chunks
`"a"*60` and `"b"*60`, and their concatenation is not the original text minus
a dropped sub-minimum trailing fragment — the paragraph separator `"\n\n"`
between the two windows has been stripped away, so the concatenation does not
match a cut of the text at any cut point `k`. -/
theorem chunk_coverage_cex :
    chunk_text exC1 120 0 5 =
      some [List.replicate 60 'a', List.replicate 60 'b'] ∧
      ∀ k ≤ exC1.length,
        ¬ (List.replicate 60 'a' ++ List.replicate 60 'b' = exC1.take k ∧
            (pyStrip (exC1.drop k)).length ≤ 50) := by
  constructor
  · decide
  · decide

/-- C1 as amended.  Whenever `chunk_text` terminates: the raw windows it
traverses form a contiguous gap-free cover of the whole text (the first
starts at 0, each next starts at the previous window's end minus `overlap`,
and every text position lies inside some window), and the returned chunks are
exactly the whitespace-stripped window slices, in window order, with the
fragments that are empty or strip to at most 50 characters dropped (wherever
they occur).  Reconstructing the text from the returned strings is only
possible up to the whitespace stripped at window boundaries and the dropped
fragments. -/
theorem chunk_coverage_amended (text : List Char) (size overlap fuel : Nat)
    (res : List (List Char))
    (h : chunk_text text size overlap fuel = some res) :
    ∃ ws, chunk_windows text size overlap fuel = some ws ∧
      res = procW text ws ∧
      linked overlap 0 ws ∧
      ∀ p : Nat, p < text.length → covered ws (p : Int) := by
  have heq := chunk_text_eq_windows text size overlap fuel
  rw [h] at heq
  cases hw : chunk_windows text size overlap fuel with
  | none => rw [hw] at heq; simp at heq
  | some ws =>
    rw [hw] at heq
    refine ⟨ws, rfl, by simpa using heq, ?_, ?_⟩
    · obtain ⟨tailW, ht, hl⟩ :=
        chunkWindowsLoop_linked text size overlap fuel 0 [] ws hw
      rw [ht]
      simpa using hl
    · intro p hp
      refine chunkWindowsLoop_covers text size overlap fuel 0 0 [] ws
        le_rfl ?_ hw (p : Int) (by positivity) (by exact_mod_cast hp)
      intro q _ hq
      omega

/-- Witness for the amended C1 at a concrete input. -/
theorem chunk_coverage_amended_w :
    chunk_text exW 1000 200 2 = some [exW] ∧
      ∃ ws, chunk_windows exW 1000 200 2 = some ws ∧
        [exW] = procW exW ws ∧
        linked 200 0 ws ∧
        ∀ p : Nat, p < exW.length → covered ws (p : Int) :=
  ⟨by decide, chunk_coverage_amended exW 1000 200 2 [exW] (by decide)⟩

/-! ## Chunker termination (C2) -/

/-- The chunking loop never terminates from window start `s`, whatever fuel
and accumulator it is given: the real Python `while` loop runs forever. -/
def divergesFrom (text : List Char) (size overlap : Nat) (s : Int) : Prop :=
  ∀ (fuel : Nat) (acc : List (List Char)),
    chunkLoop text size overlap fuel s acc = none

/-- C2 failing input: `"aaaa\naaaa\naaaa\naaaa"` with `size = 10`,
`overlap = 8`. -/
def exC2 : List Char := "aaaa\naaaa\naaaa\naaaa".data

theorem exC2_diverges_two :
    ∀ (fuel : Nat) (acc : List (List Char)),
      chunkLoop exC2 10 8 fuel 2 acc = none := by
  intro fuel
  induction fuel with
  | zero => intro acc; rfl
  | succ n ih =>
    intro acc
    rw [chunkLoop]
    rw [if_pos (by decide : (2 : Int) < (exC2.length : Int))]
    rw [show nextStart exC2 10 8 2 = 2 from by decide]
    exact ih _

/-- C2 is false on the code, and the code is broken: with the valid pair
`overlap = 8 < 10 = size` (the claim says this suffices for progress), on
`exC2` the advancing start moves from 0 to 2 and then stays at 2 forever —
the separator search pins the window end at `start + size // 2 + 1`, so
`end - overlap < start` fails to advance even though `overlap < size`.
`chunk_text` never terminates (every fuel yields `none`), while the window
start 2 is strictly below the text length 19. -/
theorem chunk_termination_bug :
    (0 ≤ 8 ∧ 8 < 10) ∧
      nextStart exC2 10 8 0 = 2 ∧
      nextStart exC2 10 8 2 = 2 ∧
      (2 : Int) < (exC2.length : Int) ∧
      divergesFrom exC2 10 8 0 := by
  refine ⟨by decide, by decide, by decide, by decide, ?_⟩
  intro fuel acc
  cases fuel with
  | zero => rfl
  | succ n =>
    rw [chunkLoop]
    rw [if_pos (by decide : (0 : Int) < (exC2.length : Int))]
    rw [show nextStart exC2 10 8 0 = 2 from by decide]
    exact exC2_diverges_two n _

/-! ## Embedding order preservation (C4) -/

theorem embedLoop_eq_map {T E : Type} (cap : List T → List E) (f : T → E)
    (bs : Nat) (hbs : 1 ≤ bs) (hcap : ∀ l, cap l = l.map f) :
    ∀ (fuel : Nat) (ts : List T), ts.length ≤ fuel →
      embedLoop cap bs fuel ts = ts.map f := by
  intro fuel
  induction fuel with
  | zero =>
    intro ts hts
    have : ts = [] := List.eq_nil_of_length_eq_zero (by omega)
    subst this; rfl
  | succ n ih =>
    intro ts hts
    rw [embedLoop]
    by_cases hts0 : ts.isEmpty
    · rw [if_pos hts0]
      rw [List.isEmpty_iff] at hts0
      subst hts0; rfl
    · rw [if_neg hts0]
      rw [List.isEmpty_iff] at hts0
      have hlen : (ts.drop bs).length ≤ n := by
        have h1 : 1 ≤ ts.length := by
          cases ts with
          | nil => exact absurd rfl hts0
          | cons a t => simp
        rw [List.length_drop]
        omega
      rw [ih _ hlen, hcap, ← List.map_append, List.take_append_drop]

theorem batchesLoop_facts {T : Type} (bs : Nat) (hbs : 1 ≤ bs) :
    ∀ (fuel : Nat) (ts : List T), ts.length ≤ fuel →
      (∀ b ∈ batchesLoop bs fuel ts, b ≠ [] ∧ b.length ≤ bs) ∧
        (batchesLoop bs fuel ts).flatten = ts := by
  intro fuel
  induction fuel with
  | zero =>
    intro ts hts
    have : ts = [] := List.eq_nil_of_length_eq_zero (by omega)
    subst this
    exact ⟨by intro b hb; simp [batchesLoop] at hb, rfl⟩
  | succ n ih =>
    intro ts hts
    rw [batchesLoop]
    by_cases hts0 : ts.isEmpty
    · rw [if_pos hts0]
      rw [List.isEmpty_iff] at hts0
      subst hts0
      exact ⟨by intro b hb; simp at hb, rfl⟩
    · rw [if_neg hts0]
      rw [List.isEmpty_iff] at hts0
      have h1 : 1 ≤ ts.length := by
        cases ts with
        | nil => exact absurd rfl hts0
        | cons a t => simp
      have hlen : (ts.drop bs).length ≤ n := by
        rw [List.length_drop]; omega
      obtain ⟨ihm, ihj⟩ := ih _ hlen
      constructor
      · intro b hb
        rcases List.mem_cons.mp hb with hb1 | hb2
        · subst hb1
          constructor
          · intro hcon
            rw [ List.take_eq_nil_iff] at hcon
            rcases hcon with hcon | hcon
            · omega
            · exact hts0 hcon
          · simp
        · exact ihm b hb2
      · rw [ List.flatten_cons, ihj, List.take_append_drop]

theorem embedLoop_eq_batches {T E : Type} (cap : List T → List E) (bs : Nat) :
    ∀ (fuel : Nat) (ts : List T),
      embedLoop cap bs fuel ts = ((batchesLoop bs fuel ts).map cap).flatten := by
  intro fuel
  induction fuel with
  | zero => intro ts; rfl
  | succ n ih =>
    intro ts
    rw [embedLoop, batchesLoop]
    by_cases hts0 : ts.isEmpty
    · rw [if_pos hts0, if_pos hts0]; rfl
    · rw [if_neg hts0, if_neg hts0]
      rw [ List.map_cons, List.flatten_cons, ih]

/-- C4.  For every list of texts and every batch size ≥ 1, `embed_texts`
splits the input into consecutive non-empty batches of at most `batch_size`
items whose concatenation is the input, calls the embedding capability once
per batch, and — against any per-batch order-preserving stub capability
`cap = map f` — returns exactly one vector per input text, the `i`-th being
the embedding of the `i`-th text (`embed_texts cap bs texts = texts.map f`). -/
theorem embed_order_preservation {T E : Type} (f : T → E)
    (cap : List T → List E) (bs : Nat) (texts : List T)
    (hbs : 1 ≤ bs) (hcap : ∀ l, cap l = l.map f) :
    (∀ b ∈ batches bs texts, b ≠ [] ∧ b.length ≤ bs) ∧
      (batches bs texts).flatten = texts ∧
      embed_texts cap bs texts = ((batches bs texts).map cap).flatten ∧
      embed_texts cap bs texts = texts.map f := by
  obtain ⟨h1, h2⟩ := batchesLoop_facts bs hbs texts.length texts le_rfl
  exact ⟨h1, h2, embedLoop_eq_batches cap bs texts.length texts,
    embedLoop_eq_map cap f bs hbs hcap texts.length texts le_rfl⟩

/-- Witness for C4 at a concrete input: batch size 2 over three numbers with
the stub capability `map (· + 1)`. -/
theorem embed_order_preservation_w :
    (∀ b ∈ batches 2 [10, 20, 30], b ≠ [] ∧ b.length ≤ 2) ∧
      (batches 2 [10, 20, 30]).flatten = [10, 20, 30] ∧
      embed_texts (fun l => l.map (· + 1)) 2 [10, 20, 30] =
        ((batches 2 [10, 20, 30]).map (fun l => l.map (· + 1))).flatten ∧
      embed_texts (fun l => l.map (· + 1)) 2 [10, 20, 30] =
        [10, 20, 30].map (· + 1) :=
  embed_order_preservation (· + 1) (fun l => l.map (· + 1)) 2 [10, 20, 30]
    (by decide) (fun l => rfl)

/-! ## Injectivity of the generated chunk ids -/

/-- Read a digit string back as a number (left inverse of the formatting). -/
def digitVal (l : List Char) : Nat :=
  l.foldl (fun acc c => 10 * acc + (c.toNat - 48)) 0

theorem digitVal_append_last (l : List Char) (c : Char) :
    digitVal (l ++ [c]) = 10 * digitVal l + (c.toNat - 48) := by
  unfold digitVal
  rw [List.foldl_append]
  rfl

theorem digitChar_toNat : ∀ d < 10, (digitChar d).toNat = 48 + d := by decide

theorem digitVal_digitsAux :
    ∀ (fuel n : Nat), n ≤ fuel → digitVal (digitsAux fuel n) = n := by
  intro fuel
  induction fuel with
  | zero =>
    intro n hn
    interval_cases n
    rfl
  | succ f ih =>
    intro n hn
    match n with
    | 0 => rfl
    | m + 1 =>
      rw [digitsAux, digitVal_append_last]
      have hdiv : (m + 1) / 10 ≤ f := by
        have := Nat.div_lt_self (Nat.succ_pos m) (by norm_num : 1 < 10)
        omega
      rw [ih _ hdiv]
      rw [digitChar_toNat _ (Nat.mod_lt _ (by norm_num))]
      omega

theorem digitVal_digits (n : Nat) : digitVal (digits n) = n := by
  unfold digits
  by_cases h : n = 0
  · subst h; rfl
  · rw [if_neg h]
    exact digitVal_digitsAux n n le_rfl

theorem digitVal_replicate (k : Nat) (l : List Char) :
    digitVal (List.replicate k '0' ++ l) = digitVal l := by
  induction k with
  | zero => rfl
  | succ m ih =>
    rw [ List.replicate_succ, List.cons_append]
    show digitVal (List.replicate m '0' ++ l) = digitVal l
    exact ih

theorem fmt06_val (n : Nat) : digitVal (fmt06 n) = n := by
  unfold fmt06
  rw [digitVal_replicate, digitVal_digits]

theorem chunkId_inj (a b : Nat) (h : chunkId a = chunkId b) : a = b := by
  unfold chunkId at h
  have h2 : fmt06 a = fmt06 b := List.append_cancel_left h
  have := congrArg digitVal h2
  rwa [fmt06_val, fmt06_val] at this

/-! ## `zipRecs` and `addLoop` -/

theorem zipRecs_length {E : Type} :
    ∀ (ids cs : List (List Char)) (es : List E) (ms : List ChunkMeta),
      cs.length = ids.length → es.length = ids.length → ms.length = ids.length →
      (zipRecs ids cs es ms).length = ids.length := by
  intro ids
  induction ids with
  | nil =>
    intro cs es ms _ _ _
    cases cs <;> cases es <;> cases ms <;> rfl
  | cons i is2 ih =>
    intro cs es ms h1 h2 h3
    cases cs with
    | nil => simp at h1
    | cons c cst =>
      cases es with
      | nil => simp at h2
      | cons e est =>
        cases ms with
        | nil => simp at h3
        | cons m mst =>
          simp only [zipRecs, List.length_cons]
          rw [ih cst est mst (by simpa using h1) (by simpa using h2)
            (by simpa using h3)]

theorem zipRecs_id_mem {E : Type} :
    ∀ (ids cs : List (List Char)) (es : List E) (ms : List ChunkMeta)
      (r : VecRec E), r ∈ zipRecs ids cs es ms → r.id ∈ ids := by
  intro ids
  induction ids with
  | nil =>
    intro cs es ms r h
    have hz : zipRecs ([] : List (List Char)) cs es ms = [] := by
      cases cs <;> cases es <;> cases ms <;> rfl
    rw [hz] at h
    simp at h
  | cons i is2 ih =>
    intro cs es ms r h
    cases cs with
    | nil =>
      have hz : zipRecs (i :: is2) ([] : List (List Char)) es ms = [] := by
        cases es <;> cases ms <;> rfl
      rw [hz] at h; simp at h
    | cons c cst =>
      cases es with
      | nil =>
        have hz : zipRecs (i :: is2) (c :: cst) ([] : List E) ms = [] := by
          cases ms <;> rfl
        rw [hz] at h; simp at h
      | cons e est =>
        cases ms with
        | nil => simp [zipRecs] at h
        | cons m mst =>
          rw [zipRecs] at h
          rcases List.mem_cons.mp h with h0 | h0
          · subst h0; simp
          · exact List.mem_cons_of_mem _ (ih cst est mst r h0)

theorem zipRecs_get {E : Type} :
    ∀ (ids cs : List (List Char)) (es : List E) (ms : List ChunkMeta)
      (j : Nat) (hj : j < ids.length) (hj1 : j < cs.length)
      (hj2 : j < es.length) (hj3 : j < ms.length)
      (hjz : j < (zipRecs ids cs es ms).length),
      (zipRecs ids cs es ms).get ⟨j, hjz⟩ =
        ⟨ids.get ⟨j, hj⟩, cs.get ⟨j, hj1⟩, es.get ⟨j, hj2⟩, ms.get ⟨j, hj3⟩⟩ := by
  intro ids
  induction ids with
  | nil => intro cs es ms j hj; simp at hj
  | cons i is2 ih =>
    intro cs es ms j hj hj1 hj2 hj3 hjz
    cases cs with
    | nil => simp at hj1
    | cons c cst =>
      cases es with
      | nil => simp at hj2
      | cons e est =>
        cases ms with
        | nil => simp at hj3
        | cons m mst =>
          cases j with
          | zero => rfl
          | succ k =>
            show (zipRecs is2 cst est mst).get ⟨k, _⟩ = _
            rw [ih cst est mst k (by simpa using hj) (by simpa using hj1)
              (by simpa using hj2) (by simpa using hj3)]
            rfl

theorem addLoop_eq_append {E : Type} (limit : Nat) (hlim : 1 ≤ limit) :
    ∀ (fuel : Nat) (coll pend : List (VecRec E)), pend.length < fuel →
      addLoop limit fuel coll pend = coll ++ pend := by
  intro fuel
  induction fuel with
  | zero => intro coll pend h; omega
  | succ n ih =>
    intro coll pend h
    rw [addLoop]
    by_cases hp : pend.isEmpty
    · rw [if_pos hp]
      rw [List.isEmpty_iff] at hp
      subst hp; simp
    · rw [if_neg hp]
      rw [List.isEmpty_iff] at hp
      have h1 : 1 ≤ pend.length := by
        cases pend with
        | nil => exact absurd rfl hp
        | cons a t => simp
      have h2 : (pend.drop limit).length < n := by
        rw [List.length_drop]; omega
      rw [ih _ _ h2, List.append_assoc, List.take_append_drop]

/-! ## Structure of `chunk_documents` and `ingest_docs` -/

theorem chunk_documents_len (size ov fuel : Nat) :
    ∀ (docs : List DocRecord) (cs : List (List Char)) (ms : List ChunkMeta),
      chunk_documents size ov fuel docs = some (cs, ms) → ms.length = cs.length := by
  intro docs
  induction docs with
  | nil =>
    intro cs ms h
    rw [chunk_documents] at h
    simp only [Option.some.injEq, Prod.mk.injEq] at h
    obtain ⟨hc, hm⟩ := h
    rw [← hc, ← hm]
    rfl
  | cons d rest ih =>
    intro cs ms h
    rw [chunk_documents] at h
    cases h1 : chunk_text d.text size ov fuel with
    | none => rw [h1] at h; simp at h
    | some dcs =>
      rw [h1] at h
      cases h2 : chunk_documents size ov fuel rest with
      | none => rw [h2] at h; simp at h
      | some pr =>
        obtain ⟨rc, rm⟩ := pr
        rw [h2] at h
        simp only [Option.some.injEq, Prod.mk.injEq] at h
        obtain ⟨hcs0, hms0⟩ := h
        rw [← hcs0, ← hms0]
        simp only [List.length_append, metasFor, List.length_map,
          List.length_range]
        rw [ih rc rm h2]

theorem chunk_documents_struct (size ov fuel : Nat) :
    ∀ (docs : List DocRecord) (cs : List (List Char)) (ms : List ChunkMeta),
      chunk_documents size ov fuel docs = some (cs, ms) →
      ∃ css : List (List (List Char)),
        List.Forall₂ (fun d dcs => chunk_text d.text size ov fuel = some dcs)
          docs css ∧
        cs = css.flatten ∧
        ms = ((docs.zip css).map fun p => metasFor p.1 p.2).flatten := by
  intro docs
  induction docs with
  | nil =>
    intro cs ms h
    rw [chunk_documents] at h
    simp only [Option.some.injEq, Prod.mk.injEq] at h
    obtain ⟨hc, hm⟩ := h
    refine ⟨[], List.Forall₂.nil, ?_, ?_⟩
    · rw [← hc]; rfl
    · rw [← hm]; rfl
  | cons d rest ih =>
    intro cs ms h
    rw [chunk_documents] at h
    cases h1 : chunk_text d.text size ov fuel with
    | none => rw [h1] at h; simp at h
    | some dcs =>
      rw [h1] at h
      cases h2 : chunk_documents size ov fuel rest with
      | none => rw [h2] at h; simp at h
      | some pr =>
        obtain ⟨rc, rm⟩ := pr
        rw [h2] at h
        simp only [Option.some.injEq, Prod.mk.injEq] at h
        obtain ⟨hcs0, hms0⟩ := h
        have hcs : cs = dcs ++ rc := hcs0.symm
        have hms : ms = metasFor d dcs ++ rm := hms0.symm
        obtain ⟨css, hf, hc2, hm2⟩ := ih rc rm h2
        refine ⟨dcs :: css, List.Forall₂.cons h1 hf, ?_, ?_⟩
        · rw [hcs, hc2, List.flatten_cons]
        · rw [hms, hm2]
          rw [ List.zip_cons_cons, List.map_cons, List.flatten_cons]

theorem ingest_docs_inv {E : Type} (cap : List (List Char) → List E)
    (bs size ov fuel : Nat) (docs : List DocRecord) (append : Bool)
    (coll : List (VecRec E)) (stats : IngestStats) (coll2 : List (VecRec E))
    (hd : docs ≠ [])
    (h : ingest_docs cap bs size ov fuel docs append coll = some (stats, coll2)) :
    ∃ cs ms, chunk_documents size ov fuel docs = some (cs, ms) := by
  unfold ingest_docs at h
  rw [if_neg hd] at h
  cases hc : chunk_documents size ov fuel docs with
  | none => rw [hc] at h; simp at h
  | some pr =>
    obtain ⟨cs0, ms0⟩ := pr
    exact ⟨cs0, ms0, rfl⟩

theorem ingest_docs_eq {E : Type} (f : List Char → E)
    (cap : List (List Char) → List E) (bs size ov fuel : Nat)
    (docs : List DocRecord) (append : Bool) (coll : List (VecRec E))
    (cs : List (List Char)) (ms : List ChunkMeta)
    (hcap : ∀ l, cap l = l.map f) (hbs : 1 ≤ bs) (hd : docs ≠ [])
    (hcd : chunk_documents size ov fuel docs = some (cs, ms)) :
    ingest_docs cap bs size ov fuel docs append coll =
      some ({ documents := docs.length, chunks := cs.length,
              tokens_est := (cs.map List.length).sum / 4, errors := [] },
            (if append then coll else []) ++
              zipRecs
                ((List.range cs.length).map fun i =>
                  chunkId ((if append then coll.length else 0) + i))
                cs (cs.map f) ms) := by
  have he : embed_texts cap bs cs = cs.map f :=
    embedLoop_eq_map cap f bs hbs hcap cs.length cs le_rfl
  unfold ingest_docs
  rw [if_neg hd, hcd]
  dsimp only
  rw [he]
  rw [addLoop_eq_append 5000 (by norm_num) _ _ _ (Nat.lt_succ_self _)]
  cases append with
  | false => simp
  | true => simp

/-! ## Document-then-chunk ordering (C8) -/

/-- C8.  For one ingest call, `chunk_documents` emits the chunk and metadata
lists with equal lengths, in document order then chunk order (the chunk list
is the concatenation of the per-document chunk lists, and the metadata list
is the concatenation of the per-document `metasFor` lists, whose `i`-th entry
carries `chunk_index = i` and `total_chunks = ` that document's chunk count);
and in the stored records the `j`-th generated id `chunk_{ec+j:06d}` is
paired with the `j`-th chunk, the `j`-th embedding (its image under the stub
capability), and the `j`-th metadata record. -/
theorem doc_chunk_ordering {E : Type} (f : List Char → E)
    (cap : List (List Char) → List E) (bs size overlap fuel : Nat)
    (docs : List DocRecord) (append : Bool) (coll : List (VecRec E))
    (cs : List (List Char)) (ms : List ChunkMeta) (stats : IngestStats)
    (coll2 : List (VecRec E))
    (hcap : ∀ l, cap l = l.map f) (hbs : 1 ≤ bs) (hd : docs ≠ [])
    (hcd : chunk_documents size overlap fuel docs = some (cs, ms))
    (hing : ingest_docs cap bs size overlap fuel docs append coll =
      some (stats, coll2)) :
    ms.length = cs.length ∧
      (∃ css,
        List.Forall₂
          (fun d dcs => chunk_text d.text size overlap fuel = some dcs)
          docs css ∧
        cs = css.flatten ∧
        ms = ((docs.zip css).map fun p => metasFor p.1 p.2).flatten) ∧
      stats.chunks = cs.length ∧
      coll2.length = (if append then coll.length else 0) + cs.length ∧
      ∀ (j : Nat) (hj : j < cs.length) (hjm : j < ms.length)
        (hjc : (if append then coll.length else 0) + j < coll2.length),
        coll2.get ⟨(if append then coll.length else 0) + j, hjc⟩ =
          ⟨chunkId ((if append then coll.length else 0) + j),
            cs.get ⟨j, hj⟩, f (cs.get ⟨j, hj⟩), ms.get ⟨j, hjm⟩⟩ := by
  have hlen := chunk_documents_len size overlap fuel docs cs ms hcd
  have heq := ingest_docs_eq f cap bs size overlap fuel docs append coll cs ms
    hcap hbs hd hcd
  rw [heq] at hing
  simp only [Option.some.injEq, Prod.mk.injEq] at hing
  obtain ⟨hstats, hcoll⟩ := hing
  have hids : ((List.range cs.length).map fun i =>
      chunkId ((if append then coll.length else 0) + i)).length = cs.length := by
    simp
  have hzlen : (zipRecs
      ((List.range cs.length).map fun i =>
        chunkId ((if append then coll.length else 0) + i))
      cs (cs.map f) ms).length = cs.length := by
    rw [zipRecs_length _ _ _ _ (by simp) (by simp) (by rw [hids]; exact hlen)]
    exact hids
  have hc1 : (if append then coll else ([] : List (VecRec E))).length =
      (if append then coll.length else 0) := by
    cases append <;> simp
  refine ⟨hlen, chunk_documents_struct size overlap fuel docs cs ms hcd,
    by rw [← hstats], ?_, ?_⟩
  · rw [← hcoll, List.length_append, hzlen, hc1]
  · intro j hj hjm hjc
    subst hcoll
    have hjz : (if append then coll.length else 0) + j -
        (if append then coll else ([] : List (VecRec E))).length = j := by
      rw [hc1]; omega
    have hjid : j < ((List.range cs.length).map fun i =>
        chunkId ((if append then coll.length else 0) + i)).length := by
      rw [hids]; exact hj
    have hjz2 : j < (zipRecs
        ((List.range cs.length).map fun i =>
          chunkId ((if append then coll.length else 0) + i))
        cs (cs.map f) ms).length := by
      rw [hzlen]; exact hj
    have hz := zipRecs_get
      ((List.range cs.length).map fun i =>
        chunkId ((if append then coll.length else 0) + i))
      cs (cs.map f) ms j hjid hj (by simpa using hj) hjm hjz2
    simp only [ List.get_eq_getElem] at hz ⊢
    rw [ List.getElem_append_right (by rw [hc1]; omega)]
    simp only [hjz]
    rw [hz]
    simp

/-! ## Concrete ingest exemplars -/

/-- 60 `b`s: the single chunk of the second exemplar document. -/
def exWB : List Char := List.replicate 60 'b'

def exDocA : DocRecord :=
  ⟨"a.txt".data, "/docs/a.txt".data, "/docs".data, exW, "hashA".data, 60,
   "2024-01-01".data⟩

def exDocB : DocRecord :=
  ⟨"b.txt".data, "/docs/b.txt".data, "/docs".data, exWB, "hashB".data, 60,
   "2024-01-02".data⟩

def exMetaA : ChunkMeta :=
  ⟨"a.txt".data, "/docs".data, 0, 1, "hashA".data, "2024-01-01".data⟩

def exMetaB : ChunkMeta :=
  ⟨"b.txt".data, "/docs".data, 0, 1, "hashB".data, "2024-01-02".data⟩

def exCap : List (List Char) → List Nat := fun l => l.map List.length

def exStatsA : IngestStats := ⟨1, 1, 15, []⟩

def exRecA : VecRec Nat := ⟨"chunk_000000".data, exW, 60, exMetaA⟩

def exRecB : VecRec Nat := ⟨"chunk_000001".data, exWB, 60, exMetaB⟩

def exCollA : List (VecRec Nat) := [exRecA]

def exCollB : List (VecRec Nat) := [exRecA, exRecB]

/-- Witness for C8 at a concrete input: one document, one chunk, fresh
ingest. -/
theorem doc_chunk_ordering_w :
    [exMetaA].length = [exW].length ∧
      (∃ css,
        List.Forall₂ (fun d dcs => chunk_text d.text 1000 200 2 = some dcs)
          [exDocA] css ∧
        [exW] = css.flatten ∧
        [exMetaA] = (([exDocA].zip css).map fun p => metasFor p.1 p.2).flatten) ∧
      exStatsA.chunks = [exW].length ∧
      exCollA.length = 0 + [exW].length ∧
      ∀ (j : Nat) (hj : j < [exW].length) (hjm : j < [exMetaA].length)
        (hjc : 0 + j < exCollA.length),
        exCollA.get ⟨0 + j, hjc⟩ =
          ⟨chunkId (0 + j), [exW].get ⟨j, hj⟩,
            List.length ([exW].get ⟨j, hj⟩), [exMetaA].get ⟨j, hjm⟩⟩ :=
  doc_chunk_ordering List.length exCap 50 1000 200 2 [exDocA] false []
    [exW] [exMetaA] exStatsA exCollA (fun l => rfl) (by decide) (by decide)
    (by decide) (by decide)

/-! ## ID uniqueness under append (C3) -/

/-- C3.  Fresh-ingesting document set A (ids from 0) and then append-ingesting
document set B (ids from the collection's current count) yields: the count of
the first collection is `len(chunks(A))`; the final count is
`len(chunks(A)) + len(chunks(B))`; the A-records are preserved unchanged as
the prefix of the final collection; and every id issued for B is distinct
from every id of A.  (The sequential composition of the two ingest calls is
the single-writer assumption.) -/
theorem id_uniqueness_append {E : Type} (f : List Char → E)
    (cap : List (List Char) → List E) (bs size overlap fuel : Nat)
    (docsA docsB : List DocRecord) (collInit : List (VecRec E))
    (statsA statsB : IngestStats) (collA collB : List (VecRec E))
    (hcap : ∀ l, cap l = l.map f) (hbs : 1 ≤ bs)
    (hdA : docsA ≠ []) (hdB : docsB ≠ [])
    (hA : ingest_docs cap bs size overlap fuel docsA false collInit =
      some (statsA, collA))
    (hB : ingest_docs cap bs size overlap fuel docsB true collA =
      some (statsB, collB)) :
    collA.length = statsA.chunks ∧
      collB.length = statsA.chunks + statsB.chunks ∧
      collB.take collA.length = collA ∧
      ∀ r1 ∈ collA, ∀ r2 ∈ collB.drop collA.length, r1.id ≠ r2.id := by
  obtain ⟨csA, msA, hcdA⟩ := ingest_docs_inv cap bs size overlap fuel docsA
    false collInit statsA collA hdA hA
  obtain ⟨csB, msB, hcdB⟩ := ingest_docs_inv cap bs size overlap fuel docsB
    true collA statsB collB hdB hB
  have hlenA := chunk_documents_len size overlap fuel docsA csA msA hcdA
  have hlenB := chunk_documents_len size overlap fuel docsB csB msB hcdB
  have heqA := ingest_docs_eq f cap bs size overlap fuel docsA false collInit
    csA msA hcap hbs hdA hcdA
  have heqB := ingest_docs_eq f cap bs size overlap fuel docsB true collA
    csB msB hcap hbs hdB hcdB
  rw [heqA] at hA
  simp only [Option.some.injEq, Prod.mk.injEq] at hA
  obtain ⟨hsA, hcA⟩ := hA
  rw [heqB] at hB
  simp only [Option.some.injEq, Prod.mk.injEq] at hB
  obtain ⟨hsB, hcB⟩ := hB
  rw [show (if (false : Bool) = true then collInit else ([] : List (VecRec E)))
        = [] from rfl,
      show (if (false : Bool) = true then collInit.length else 0) = 0 from rfl,
      List.nil_append] at hcA
  simp only [if_true] at hcB
  have hzA : (zipRecs ((List.range csA.length).map fun i => chunkId (0 + i))
      csA (csA.map f) msA).length = csA.length := by
    rw [zipRecs_length _ _ _ _ (by simp) (by simp) (by simp [hlenA])]
    simp
  have hzB : (zipRecs
      ((List.range csB.length).map fun i => chunkId (collA.length + i))
      csB (csB.map f) msB).length = csB.length := by
    rw [zipRecs_length _ _ _ _ (by simp) (by simp) (by simp [hlenB])]
    simp
  have hAlen : collA.length = csA.length := by rw [← hcA]; exact hzA
  refine ⟨?_, ?_, ?_, ?_⟩
  · rw [hAlen, ← hsA]
  · rw [← hcB, List.length_append, hzB, hAlen, ← hsA, ← hsB]
  · rw [← hcB]
    exact List.take_left _ _
  · intro r1 h1 r2 h2
    rw [← hcA] at h1
    rw [← hcB, List.drop_left] at h2
    have hid1 := zipRecs_id_mem _ _ _ _ r1 h1
    have hid2 := zipRecs_id_mem _ _ _ _ r2 h2
    obtain ⟨i, hi, hieq⟩ := List.mem_map.mp hid1
    obtain ⟨j, hj, hjeq⟩ := List.mem_map.mp hid2
    rw [ List.mem_range] at hi hj
    intro hcon
    have : 0 + i = collA.length + j := by
      apply chunkId_inj
      rw [hieq, hjeq, hcon]
    omega

/-- Witness for C3 at a concrete input: two one-document sets, fresh then
append; the final collection holds `chunk_000000` then `chunk_000001`. -/
theorem id_uniqueness_append_w :
    exCollA.length = exStatsA.chunks ∧
      exCollB.length = exStatsA.chunks + exStatsA.chunks ∧
      exCollB.take exCollA.length = exCollA ∧
      ∀ r1 ∈ exCollA, ∀ r2 ∈ exCollB.drop exCollA.length, r1.id ≠ r2.id :=
  id_uniqueness_append List.length exCap 50 1000 200 2 [exDocA] [exDocB] []
    exStatsA exStatsA exCollA exCollB (fun l => rfl) (by decide) (by decide)
    (by decide) (by decide) (by decide)

/-! ## Loader error handling (C6, C7) -/

/-- Exemplar file that exists and extracts fine. -/
def exGoodEntry : FileEntry :=
  ⟨"good.txt".data, "/d/good.txt".data, ".txt".data,
   "hello this is a perfectly fine document".data, "/d".data,
   "2024-01-03".data⟩

/-- Exemplar filesystem containing only `/d/good.txt`. -/
def exFS : FS := [("/d/good.txt".data, .file exGoodEntry)]

/-- The document record `load_sources` builds for `exGoodEntry` with the
identity digest stub. -/
def exGoodDoc : DocRecord :=
  ⟨"good.txt".data, "/d/good.txt".data, "/d".data,
   "hello this is a perfectly fine document".data,
   "hello this is a perfectly fine document".data, 39, "2024-01-03".data⟩

/-- C7 is false as stated: a supplied path that does not exist on the
filesystem does not abort the load — `load_sources` logs a warning and
continues with the remaining paths (here it returns the document of the
second, existing path), and its return type carries no error at all. -/
theorem notfound_aborts_cex :
    fsLookup exFS ("/missing.txt".data) = none ∧
      load_sources exFS id ["/missing.txt".data, "/d/good.txt".data] =
        [exGoodDoc] := by
  constructor
  · rfl
  · decide

/-- C7 as amended.  A missing manifest file does fail the operation with a
`FileNotFoundError`-class error; but a supplied ingest path that does not
exist is skipped with a warning and the load continues with the remaining
paths — it never aborts the operation. -/
theorem notfound_aborts_amended :
    (∀ (fs : FS) (hashFn : List Char → List Char),
      load_sources_file fs hashFn none = .error .fileNotFound) ∧
      ∀ (fs : FS) (hashFn : List Char → List Char) (p : List Char)
        (rest : List (List Char)), fsLookup fs p = none →
        load_sources fs hashFn (p :: rest) = load_sources fs hashFn rest := by
  constructor
  · intro fs hashFn; rfl
  · intro fs hashFn p rest hp
    rw [load_sources, hp]
    rfl

/-- Witness for the amended C7 at a concrete input. -/
theorem notfound_aborts_amended_w :
    load_sources_file exFS id none = .error .fileNotFound ∧
      (fsLookup exFS ("/missing.txt".data) = none ∧
        load_sources exFS id ["/missing.txt".data] = load_sources exFS id []) :=
  ⟨notfound_aborts_amended.1 exFS id,
   by rfl,
   notfound_aborts_amended.2 exFS id ("/missing.txt".data) [] (by rfl)⟩

/-- Exemplar manifest content whose lines are all blank or comments. -/
def exEmptyManifest : List (List Char) :=
  ["".data, "   ".data, "# commento".data]

/-- C6 is false as stated: an existing manifest that yields zero usable paths
makes `load_sources_file` raise `ValueError`, which propagates out of
`ingest` as a thrown error — not a structured no-op result. -/
theorem empty_result_cex :
    ingest_from (E := Nat) exCap 50 1000 200 2 exFS id none
      (some (some exEmptyManifest)) false [] = some (.error .valueError) := by
  rfl

/-- C6 as amended.  When the loading stage produces zero documents, `ingest`
returns a structured no-op result whose `errors` field carries the
explanatory message, without raising and without touching the collection; but
a manifest that exists and yields zero usable paths instead raises a
`ValueError` that propagates out of `ingest`. -/
theorem empty_result_amended :
    (∀ (E : Type) (cap : List (List Char) → List E) (bs size ov fuel : Nat)
      (fs : FS) (hashFn : List Char → List Char) (ps : List (List Char))
      (append : Bool) (coll : List (VecRec E)),
      load_sources fs hashFn ps = [] →
      ingest_from cap bs size ov fuel fs hashFn (some ps) none append coll =
        some (.ok (⟨0, 0, 0, [noDocsMsg]⟩, coll))) ∧
      ∀ (E : Type) (cap : List (List Char) → List E) (bs size ov fuel : Nat)
        (fs : FS) (hashFn : List Char → List Char) (ls : List (List Char))
        (append : Bool) (coll : List (VecRec E)),
        (ls.map pyStrip).filter
          (fun l => decide (l ≠ [] ∧ l.head? ≠ some '#')) = [] →
        ingest_from cap bs size ov fuel fs hashFn none (some (some ls)) append
          coll = some (.error .valueError) := by
  constructor
  · intro E cap bs size ov fuel fs hashFn ps append coll hps
    unfold ingest_from
    dsimp only
    rw [hps]
    rfl
  · intro E cap bs size ov fuel fs hashFn ls append coll hls
    unfold ingest_from load_sources_file
    dsimp only
    rw [hls]
    rfl

/-- Witness for the amended C6 at concrete inputs. -/
theorem empty_result_amended_w :
    (load_sources ([] : FS) id ["/x".data] = [] ∧
      ingest_from (E := Nat) exCap 50 1000 200 2 [] id (some ["/x".data]) none
        false [] = some (.ok (⟨0, 0, 0, [noDocsMsg]⟩, []))) ∧
      ((["#".data].map pyStrip).filter
          (fun l => decide (l ≠ [] ∧ l.head? ≠ some '#')) = [] ∧
        ingest_from (E := Nat) exCap 50 1000 200 2 [] id none
          (some (some ["#".data])) true [] = some (.error .valueError)) :=
  ⟨⟨by rfl,
    empty_result_amended.1 Nat exCap 50 1000 200 2 [] id ["/x".data] false []
      (by rfl)⟩,
   ⟨by rfl,
    empty_result_amended.2 Nat exCap 50 1000 200 2 [] id ["#".data] true []
      (by rfl)⟩⟩

/-! ## Rounding facts -/

theorem rat_floor_eq (q : ℚ) : q.floor = ⌊q⌋ := by
  rw [ Rat.floor_def' q, ← Rat.floor_def]

theorem roundHalfEven_dist (q : ℚ) : |q - (roundHalfEven q : ℚ)| ≤ 1 / 2 := by
  unfold roundHalfEven
  rw [rat_floor_eq]
  have h1 : (⌊q⌋ : ℚ) ≤ q := Int.floor_le q
  have h2 : q < ⌊q⌋ + 1 := Int.lt_floor_add_one q
  by_cases hr : q - (⌊q⌋ : ℚ) < 1 / 2
  · rw [if_pos hr, abs_le]
    constructor <;> linarith
  · rw [if_neg hr]
    by_cases hr2 : 1 / 2 < q - (⌊q⌋ : ℚ)
    · rw [if_pos hr2]
      push_cast
      rw [abs_le]
      constructor <;> linarith
    · rw [if_neg hr2]
      have heq : q - (⌊q⌋ : ℚ) = 1 / 2 := by linarith
      by_cases hf : ⌊q⌋ % 2 = 0
      · rw [if_pos hf, abs_le]
        constructor <;> linarith
      · rw [if_neg hf]
        push_cast
        rw [abs_le]
        constructor <;> linarith

/-- `round(q, 4)` produces an integer multiple of `1/10^4` within half an ulp
of its argument. -/
theorem pyRound4_spec (q : ℚ) :
    (∃ z : ℤ, pyRound4 q = (z : ℚ) / 10000) ∧ |q - pyRound4 q| ≤ 1 / 20000 := by
  refine ⟨⟨roundHalfEven (q * 10000), rfl⟩, ?_⟩
  unfold pyRound4
  have h := roundHalfEven_dist (q * 10000)
  have heq : q - (roundHalfEven (q * 10000) : ℚ) / 10000 =
      (q * 10000 - (roundHalfEven (q * 10000) : ℚ)) / 10000 := by ring
  rw [heq, abs_div]
  rw [show |(10000 : ℚ)| = 10000 from by norm_num]
  rw [show (1 : ℚ) / 20000 = (1 / 2) / 10000 from by norm_num]
  gcongr

/-! ## Retrieval with empty index (C5) -/

deriving instance DecidableEq for Except

/-- A simple vector-search stub consistent with the backing engine: at most
`k` results drawn from the stored records (none from an empty collection). -/
def stubSearch : List (VecRec Nat) → Nat → Nat →
    List (List Char × ChunkMeta × ℚ) :=
  fun recs _ k => (recs.map fun r => (r.document, r.metadata, (0 : ℚ))).take k

/-- A generation stub that echoes the user prompt it was invoked on. -/
def echoGen : List Char → List Char → Except Unit GenOut :=
  fun _ user => .ok ⟨user, 0, 0, 0⟩

/-- A generation stub with a constant answer. -/
def constGen : List Char → List Char → Except Unit GenOut :=
  fun _ _ => .ok ⟨"X".data, 0, 0, 0⟩

def exQ : List Char := "Che cosa dice il documento?".data

def exSys : List Char := "system".data

/-- C5 is false as stated: `query` on an existing collection with zero
vectors does not return a "no documents indexed" condition — it returns an
ordinary `.ok` with an empty citation list, and it does invoke the generation
capability over the empty grounding context: with the echoing stub the answer
is the assembled (empty-context) prompt, and swapping the generation stub
changes the result. -/
theorem empty_index_cex :
    query stubSearch echoGen (fun _ => 0) exSys
        (some ([] : List (VecRec Nat))) exQ 5 =
      .ok ⟨userPrompt [] exQ, [], ⟨0, 0, 0⟩⟩ ∧
      query stubSearch constGen (fun _ => 0) exSys
        (some ([] : List (VecRec Nat))) exQ 5 ≠
      query stubSearch echoGen (fun _ => 0) exSys
        (some ([] : List (VecRec Nat))) exQ 5 := by
  constructor
  · rfl
  · decide

/-- C5 as amended.  Querying when the collection has never been created
yields the collection-not-found error before any generation call (a
condition distinguishable from a generation failure by construction of
`QueryError`); querying an existing but empty collection does not crash, but
it proceeds to invoke the generation capability over an empty context and
returns its answer with zero citations. -/
theorem empty_index_amended :
    (∀ (E G : Type)
      (search : List (VecRec E) → E → Nat → List (List Char × ChunkMeta × ℚ))
      (gen : List Char → List Char → Except G GenOut)
      (embedQ : List Char → E) (sys q : List Char) (k : Nat),
      query search gen embedQ sys (none : Option (List (VecRec E))) q k =
        .error .collectionNotFound) ∧
      ∀ (E G : Type)
        (search : List (VecRec E) → E → Nat → List (List Char × ChunkMeta × ℚ))
        (gen : List Char → List Char → Except G GenOut)
        (embedQ : List Char → E) (sys q : List Char) (k : Nat) (out : GenOut),
        search [] (embedQ q) k = [] →
        gen sys (userPrompt [] q) = .ok out →
        query search gen embedQ sys (some ([] : List (VecRec E))) q k =
          .ok ⟨out.content, [],
            ⟨out.prompt_tokens, out.completion_tokens, out.total_tokens⟩⟩ := by
  constructor
  · intro E G search gen embedQ sys q k
    rfl
  · intro E G search gen embedQ sys q k out hs hg
    unfold query
    dsimp only
    rw [hs]
    dsimp only [List.map_nil]
    rw [show List.intercalate ("\n\n---\n\n".data) ([] : List (List Char)) = []
      from rfl]
    rw [hg]

/-- Witness for the amended C5 at concrete inputs. -/
theorem empty_index_amended_w :
    query stubSearch echoGen (fun _ => 0) exSys
        (none : Option (List (VecRec Nat))) exQ 5 =
      .error .collectionNotFound ∧
      (stubSearch [] 0 5 = [] ∧
        echoGen exSys (userPrompt [] exQ) = .ok ⟨userPrompt [] exQ, 0, 0, 0⟩ ∧
        query stubSearch echoGen (fun _ => 0) exSys
            (some ([] : List (VecRec Nat))) exQ 5 =
          .ok ⟨userPrompt [] exQ, [], ⟨0, 0, 0⟩⟩) :=
  ⟨empty_index_amended.1 Nat Unit stubSearch echoGen (fun _ => 0) exSys exQ 5,
   by rfl, by rfl,
   empty_index_amended.2 Nat Unit stubSearch echoGen (fun _ => 0) exSys exQ 5
     ⟨userPrompt [] exQ, 0, 0, 0⟩ rfl rfl⟩

/-! ## Citation construction (C9) -/

/-- C9.  For every retrieved record `(doc, meta, dist)` of the similarity
search (taken in the nearest-first order the search returns), the citation
`query` builds carries `similarity = round(1 - dist, 4)` — an integer
multiple of `1/10^4` within half an ulp of `1 - dist` — and a preview equal
to the first 200 characters of `doc` followed by `"..."` when
`len(doc) > 200` and to `doc` itself otherwise; and the citation list of the
result is exactly the image of the search results under this construction, in
the same order. -/
theorem citation_construction (E G : Type)
    (search : List (VecRec E) → E → Nat → List (List Char × ChunkMeta × ℚ))
    (gen : List Char → List Char → Except G GenOut)
    (embedQ : List Char → E) (sys : List Char) (recs : List (VecRec E))
    (q : List Char) (k : Nat) (out : GenOut)
    (hg : gen sys (userPrompt
      (List.intercalate ("\n\n---\n\n".data)
        ((search recs (embedQ q) k).map fun r => fonteBlock r.1 r.2.1)) q) =
      .ok out) :
    query search gen embedQ sys (some recs) q k =
      .ok ⟨out.content,
        (search recs (embedQ q) k).map fun r => mkSource r.1 r.2.1 r.2.2,
        ⟨out.prompt_tokens, out.completion_tokens, out.total_tokens⟩⟩ ∧
      (∀ (doc : List Char) (meta : ChunkMeta) (dist : ℚ),
        mkSource doc meta dist =
          ⟨meta.filename, meta.chunk_index, pyRound4 (1 - dist),
            if 200 < doc.length then doc.take 200 ++ "...".data else doc⟩) ∧
      ∀ dist : ℚ,
        (∃ z : ℤ, pyRound4 (1 - dist) = (z : ℚ) / 10000) ∧
          |(1 - dist) - pyRound4 (1 - dist)| ≤ 1 / 20000 := by
  refine ⟨?_, ?_, ?_⟩
  · unfold query
    dsimp only
    rw [hg]
  · intro doc meta dist
    rfl
  · intro dist
    exact pyRound4_spec (1 - dist)

/-- A 250-character chunk text, to exercise preview truncation. -/
def exDoc250 : List Char := List.replicate 250 'c'

def exRec250 : VecRec Nat := ⟨"chunk_000099".data, exDoc250, 0, exMetaA⟩

/-- A search stub reporting distance `1/4` for every stored record. -/
def stubSearchQ : List (VecRec Nat) → Nat → Nat →
    List (List Char × ChunkMeta × ℚ) :=
  fun recs _ k => (recs.map fun r => (r.document, r.metadata, (1 / 4 : ℚ))).take k

theorem pyRound4_threequarters : pyRound4 (1 - 1 / 4) = 3 / 4 := by
  have h0 : ((1 : ℚ) - 1 / 4) * 10000 = 7500 := by norm_num
  unfold pyRound4 roundHalfEven
  rw [h0, rat_floor_eq]
  have h2 : ⌊(7500 : ℚ)⌋ = 7500 := by norm_num
  rw [h2]
  norm_num

set_option maxRecDepth 100000 in
/-- Witness for C9 at a concrete input: one 250-character record at distance
`1/4` yields a citation with similarity `3/4` and a truncated preview. -/
theorem citation_construction_w :
    (query stubSearchQ constGen (fun _ => 0) exSys (some [exRec250]) exQ 5 =
      .ok ⟨"X".data,
        (stubSearchQ [exRec250] 0 5).map fun r => mkSource r.1 r.2.1 r.2.2,
        ⟨0, 0, 0⟩⟩ ∧
      (∀ (doc : List Char) (meta : ChunkMeta) (dist : ℚ),
        mkSource doc meta dist =
          ⟨meta.filename, meta.chunk_index, pyRound4 (1 - dist),
            if 200 < doc.length then doc.take 200 ++ "...".data else doc⟩) ∧
      ∀ dist : ℚ,
        (∃ z : ℤ, pyRound4 (1 - dist) = (z : ℚ) / 10000) ∧
          |(1 - dist) - pyRound4 (1 - dist)| ≤ 1 / 20000) ∧
      (stubSearchQ [exRec250] 0 5).map (fun r => mkSource r.1 r.2.1 r.2.2) =
        [⟨"a.txt".data, 0, (3 : ℚ) / 4, List.replicate 200 'c' ++ "...".data⟩] :=
  ⟨citation_construction Nat Unit stubSearchQ constGen (fun _ => 0) exSys
    [exRec250] exQ 5 ⟨"X".data, 0, 0, 0⟩ rfl, by
      rw [show (stubSearchQ [exRec250] 0 5).map
            (fun r => mkSource r.1 r.2.1 r.2.2) =
          [mkSource exDoc250 exMetaA (1 / 4)] from rfl,
        show mkSource exDoc250 exMetaA (1 / 4) =
          ⟨exMetaA.filename, exMetaA.chunk_index, pyRound4 (1 - 1 / 4),
            if 200 < exDoc250.length then exDoc250.take 200 ++ "...".data
            else exDoc250⟩ from rfl,
        pyRound4_threequarters]
      rfl⟩

end GDPRag
